import Mathlib

/-!
Verification of the accumux streaming-statistics library.

The C++ accumulators under `include/accumux` are shallowly embedded here
over exact rational arithmetic (`ℚ` standing for the floating-point value
type, so that "within floating-point tolerance" statements become exact
equalities of the real-valued model).  Machine integer counters
(`std::size_t`) are modelled by `ℕ`; `numeric_limits<T>::max()` and
`numeric_limits<T>::lowest()` are abstract parameters of the model, since
`ℚ` has no extreme elements.  Throwing constructors and merges are
modelled with `Except`.
-/

namespace Accumux

/-- The two error categories of the spec: `ConfigurationError` raised by
constructors on invalid parameters, and `TypeMismatchError` raised when
merging incompatibly configured reducers. -/
inductive AccError where
  | ConfigurationError
  | TypeMismatchError
deriving DecidableEq, Repr

/-! ## kbn_sum (accumulators/kbn_sum.hpp)

State: running sum and correction term. -/

structure kbn_sum where
  sum : ℚ
  correction : ℚ
deriving DecidableEq, Repr

namespace kbn_sum

/-- Default constructor `kbn_sum()` : sum = 0, correction = 0. -/
def init : kbn_sum := ⟨0, 0⟩

/-- Value constructor `kbn_sum(v)` / `operator=(const T&)` :
sum = v, correction = 0. -/
def ofValue (v : ℚ) : kbn_sum := ⟨v, 0⟩

/-- `operator+=(const T&)` : the Kahan–Babuška–Neumaier update.  The
correction is derived by the cancellation-avoiding formula selected by
comparing the magnitudes of the running sum and the corrected incoming
term. -/
def addValue (s : kbn_sum) (v : ℚ) : kbn_sum :=
  let corrected_next_term := v + s.correction
  let new_sum := s.sum + corrected_next_term
  let correction :=
    if |s.sum| ≥ |corrected_next_term| then
      (s.sum - new_sum) + corrected_next_term
    else
      (corrected_next_term - new_sum) + s.sum
  ⟨new_sum, correction⟩

/-- `eval()` : returns sum + correction. -/
def eval (s : kbn_sum) : ℚ := s.sum + s.correction

/-- `operator+=(const kbn_sum&)` : folds the other's total (sum plus
correction) in as a single update. -/
def merge (s other : kbn_sum) : kbn_sum := s.addValue other.eval

/-- Fold a list of values into an accumulator with repeated updates. -/
def foldList (s : kbn_sum) (l : List ℚ) : kbn_sum := l.foldl addValue s

end kbn_sum

/-! ## min / max / count accumulators (accumulators/basic.hpp) -/

structure min_accumulator where
  min_value : ℚ
  has_value : Bool
deriving DecidableEq, Repr

namespace min_accumulator

/-- Default constructor: sentinel `numeric_limits<T>::max()` (`tmax` in
the model), no value yet. -/
def init (tmax : ℚ) : min_accumulator := ⟨tmax, false⟩

/-- `operator+=(const T&)`. -/
def addValue (s : min_accumulator) (v : ℚ) : min_accumulator :=
  if s.has_value = false ∨ v < s.min_value then ⟨v, true⟩ else s

/-- `operator+=(const min_accumulator&)`. -/
def merge (s other : min_accumulator) : min_accumulator :=
  if other.has_value then s.addValue other.min_value else s

/-- `eval()` : the minimum, or the sentinel when empty. -/
def eval (tmax : ℚ) (s : min_accumulator) : ℚ :=
  if s.has_value then s.min_value else tmax

/-- `empty()`. -/
def empty (s : min_accumulator) : Bool := !s.has_value

def foldList (s : min_accumulator) (l : List ℚ) : min_accumulator :=
  l.foldl addValue s

end min_accumulator

/-- A reachability alphabet for `min_accumulator`: the mutations the
class exposes are value updates and merges (with an arbitrary other
accumulator). -/
inductive MinOp where
  | upd (v : ℚ)
  | mrg (o : min_accumulator)

/-- One mutation step of `min_accumulator`. -/
def minStep (s : min_accumulator) : MinOp → min_accumulator
  | .upd v => s.addValue v
  | .mrg o => s.merge o

/-- Run a sequence of mutations from the default-constructed state. -/
def minRun (tmax : ℚ) (ops : List MinOp) : min_accumulator :=
  ops.foldl minStep (.init tmax)

/-- An op keeps the accumulator empty iff it is a merge with an empty
other accumulator. -/
def MinOpKeepsEmpty : MinOp → Prop
  | .upd _ => False
  | .mrg o => o.has_value = false

instance : DecidablePred MinOpKeepsEmpty := by
  intro op
  cases op <;> simp only [MinOpKeepsEmpty] <;> infer_instance

structure max_accumulator where
  max_value : ℚ
  has_value : Bool
deriving DecidableEq, Repr

namespace max_accumulator

/-- Default constructor: sentinel `numeric_limits<T>::lowest()` (`tlow`
in the model), no value yet. -/
def init (tlow : ℚ) : max_accumulator := ⟨tlow, false⟩

def addValue (s : max_accumulator) (v : ℚ) : max_accumulator :=
  if s.has_value = false ∨ v > s.max_value then ⟨v, true⟩ else s

def merge (s other : max_accumulator) : max_accumulator :=
  if other.has_value then s.addValue other.max_value else s

def eval (tlow : ℚ) (s : max_accumulator) : ℚ :=
  if s.has_value then s.max_value else tlow

def empty (s : max_accumulator) : Bool := !s.has_value

def foldList (s : max_accumulator) (l : List ℚ) : max_accumulator :=
  l.foldl addValue s

end max_accumulator

inductive MaxOp where
  | upd (v : ℚ)
  | mrg (o : max_accumulator)

def maxStep (s : max_accumulator) : MaxOp → max_accumulator
  | .upd v => s.addValue v
  | .mrg o => s.merge o

def maxRun (tlow : ℚ) (ops : List MaxOp) : max_accumulator :=
  ops.foldl maxStep (.init tlow)

def MaxOpKeepsEmpty : MaxOp → Prop
  | .upd _ => False
  | .mrg o => o.has_value = false

instance : DecidablePred MaxOpKeepsEmpty := by
  intro op
  cases op <;> simp only [MaxOpKeepsEmpty] <;> infer_instance

structure count_accumulator where
  count : ℕ
deriving DecidableEq, Repr

namespace count_accumulator

def init : count_accumulator := ⟨0⟩

/-- `operator+=(const T&)` ignores the datum and increments. -/
def addValue (s : count_accumulator) (_ : ℚ) : count_accumulator :=
  ⟨s.count + 1⟩

def merge (s other : count_accumulator) : count_accumulator :=
  ⟨s.count + other.count⟩

def eval (s : count_accumulator) : ℕ := s.count

def foldList (s : count_accumulator) (l : List ℚ) : count_accumulator :=
  l.foldl addValue s

end count_accumulator

/-! ## welford_accumulator (accumulators/welford.hpp)

State: sample count, running mean and M2, both held in `kbn_sum`s. -/

structure welford_accumulator where
  count : ℕ
  mean : kbn_sum
  m2 : kbn_sum
deriving DecidableEq, Repr

namespace welford_accumulator

/-- Default constructor: count 0, zero mean and M2. -/
def init : welford_accumulator := ⟨0, kbn_sum.init, kbn_sum.init⟩

/-- `operator+=(const T&)` : Welford's update.  The second delta uses the
updated mean, as the source stresses. -/
def addValue (s : welford_accumulator) (v : ℚ) : welford_accumulator :=
  let count' := s.count + 1
  let delta := v - s.mean.eval
  let mean' := s.mean.addValue (delta / (count' : ℚ))
  let delta2 := v - mean'.eval
  let m2' := s.m2.addValue (delta * delta2)
  ⟨count', mean', m2'⟩

/-- `operator+=(const welford_accumulator&)` : parallel combination.
The combined mean is assigned as a plain value (`kbn_sum::operator=`)
and the M2 increment goes through `kbn_sum` arithmetic exactly as in
the source (`m2_ += other.m2_ + delta*delta*n1*n2/n`). -/
def merge (s other : welford_accumulator) : welford_accumulator :=
  if other.count = 0 then s
  else if s.count = 0 then other
  else
    let new_count := s.count + other.count
    let delta := other.mean.eval - s.mean.eval
    let mean' : kbn_sum :=
      kbn_sum.ofValue (((s.count : ℚ) * s.mean.eval +
        (other.count : ℚ) * other.mean.eval) / (new_count : ℚ))
    let m2' := s.m2.addValue
      ((other.m2.addValue
        (delta * delta * (s.count : ℚ) * (other.count : ℚ) /
          (new_count : ℚ))).eval)
    ⟨new_count, mean', m2'⟩

/-- `mean()` : the sample mean, 0 when empty. -/
def meanValue (s : welford_accumulator) : ℚ :=
  if s.count > 0 then s.mean.eval else 0

/-- `eval()` returns the mean. -/
def eval (s : welford_accumulator) : ℚ := s.meanValue

/-- `variance()` : population variance M2/n, 0 when empty. -/
def variance (s : welford_accumulator) : ℚ :=
  if s.count > 0 then s.m2.eval / (s.count : ℚ) else 0

/-- `sample_variance()` : M2/(n-1), 0 when n ≤ 1. -/
def sample_variance (s : welford_accumulator) : ℚ :=
  if s.count > 1 then s.m2.eval / ((s.count - 1 : ℕ) : ℚ) else 0

def foldList (s : welford_accumulator) (l : List ℚ) : welford_accumulator :=
  l.foldl addValue s

end welford_accumulator

/-- Sum of squares of a list (specification-side quantity). -/
def sqSum (l : List ℚ) : ℚ := (l.map (fun x => x * x)).sum

/-- Arithmetic mean of a list (0 for the empty list, since division by
zero is 0 in `ℚ`). -/
def listMean (l : List ℚ) : ℚ := l.sum / (l.length : ℚ)

/-- Sum of squared deviations from the mean, in the algebraically
equivalent form `Σx² − (Σx)²/n` (0 for the empty list). -/
def listM2 (l : List ℚ) : ℚ := sqSum l - l.sum * l.sum / (l.length : ℚ)

/-! ## Composition combinators (core/composition.hpp)

The combinators are parameterized by the C++ `Accumulator` concept,
modelled as a record of identity, update, merge and result
extraction. -/

/-- The reducer contract (`Accumulator` concept): identity state, update
with one datum, merge with the same concrete type, result extraction. -/
structure AccM (σ : Type) (α : Type) (β : Type) where
  ident : σ
  upd : σ → α → σ
  mrg : σ → σ → σ
  evalf : σ → β

/-- `kbn_sum<double>` as an instance of the contract. -/
def kbnAcc : AccM kbn_sum ℚ ℚ :=
  ⟨kbn_sum.init, kbn_sum.addValue, kbn_sum.merge, kbn_sum.eval⟩

/-- `max_accumulator<double>` as an instance of the contract. -/
def maxAcc (tlow : ℚ) : AccM max_accumulator ℚ ℚ :=
  ⟨max_accumulator.init tlow, max_accumulator.addValue,
    max_accumulator.merge, max_accumulator.eval tlow⟩

/-- `sequential_composition` default constructor: both children
default-constructed. -/
def seqInit {σ₁ σ₂ α β γ : Type} (A : AccM σ₁ α β) (B : AccM σ₂ β γ) :
    σ₁ × σ₂ :=
  (A.ident, B.ident)

/-- `sequential_composition::operator+=` : update the first child with
the datum, then update the second child with the first child's
cumulative `eval()`. -/
def seqAddValue {σ₁ σ₂ α β γ : Type} (A : AccM σ₁ α β) (B : AccM σ₂ β γ)
    (s : σ₁ × σ₂) (v : α) : σ₁ × σ₂ :=
  let a := A.upd s.1 v
  (a, B.upd s.2 (A.evalf a))

/-- `sequential_composition::eval` : the second child's result. -/
def seqEval {σ₁ σ₂ α β γ : Type} (_A : AccM σ₁ α β) (B : AccM σ₂ β γ)
    (s : σ₁ × σ₂) : γ :=
  B.evalf s.2

def seqFold {σ₁ σ₂ α β γ : Type} (A : AccM σ₁ α β) (B : AccM σ₂ β γ)
    (s : σ₁ × σ₂) (l : List α) : σ₁ × σ₂ :=
  l.foldl (seqAddValue A B) s

/-- The successive cumulative results of the first child along a list:
the stream the second child of a sequential composition consumes. -/
def runningEvals {σ₁ α β : Type} (A : AccM σ₁ α β) (a : σ₁) :
    List α → List β
  | [] => []
  | v :: t =>
    let a' := A.upd a v
    A.evalf a' :: runningEvals A a' t

/-- The tagged-union state of a `conditional_composition`
(`std::variant<AccumA, AccumB>`). -/
inductive CState (σA σB : Type) where
  | A (a : σA)
  | B (b : σB)
deriving DecidableEq, Repr

/-- `conditional_composition` default constructor: the variant
default-constructs its first alternative. -/
def condInit {σA σB α β : Type} (A : AccM σA α β) : CState σA σB :=
  .A A.ident

/-- `conditional_composition::operator+=(T&&)` : evaluate the predicate;
on a branch switch the variant assignment discards the old branch's
state and the new branch starts from a default-constructed (identity)
accumulator. -/
def condAddValue {σA σB α β γ : Type} (A : AccM σA α β) (B : AccM σB α γ)
    (pred : α → Bool) (s : CState σA σB) (v : α) : CState σA σB :=
  if pred v then
    match s with
    | .A a => .A (A.upd a v)
    | .B _ => .A (A.upd A.ident v)
  else
    match s with
    | .A _ => .B (B.upd B.ident v)
    | .B b => .B (B.upd b v)

/-- `conditional_composition::operator+=(const conditional_composition&)`:
the visit merges the child accumulators only when both sides hold the
same alternative; otherwise the receiver is unchanged. -/
def condMerge {σA σB α β γ : Type} (A : AccM σA α β) (B : AccM σB α γ)
    (s o : CState σA σB) : CState σA σB :=
  match s, o with
  | .A a, .A a' => .A (A.mrg a a')
  | .B b, .B b' => .B (B.mrg b b')
  | .A a, .B _ => .A a
  | .B b, .A _ => .B b

/-- `conditional_composition::eval` : the active branch's result (both
result types coerce to the common type). -/
def condEval {σA σB α β : Type} (A : AccM σA α β) (B : AccM σB α β)
    (s : CState σA σB) : β :=
  match s with
  | .A a => A.evalf a
  | .B b => B.evalf b

def condFold {σA σB α β γ : Type} (A : AccM σA α β) (B : AccM σB α γ)
    (pred : α → Bool) (s : CState σA σB) (l : List α) : CState σA σB :=
  l.foldl (condAddValue A B pred) s

/-! ## p2_quantile_accumulator (accumulators/quantile.hpp)

The five-element marker arrays are modelled by plain lists (always of
length 5 on reachable states). -/

structure p2_quantile_accumulator where
  p : ℚ
  q : List ℚ
  n : List ℤ
  n_prime : List ℚ
  dn : List ℚ
  count : ℕ
deriving DecidableEq, Repr

namespace p2_quantile_accumulator

/-- The state built by the constructor body (after validation). -/
def initState (p : ℚ) : p2_quantile_accumulator :=
  { p := p
    q := List.replicate 5 0
    n := [0, 1, 2, 3, 4]
    n_prime := [0, 2 * p, 4 * p, 2 + 2 * p, 4]
    dn := [0, p / 2, p, (1 + p) / 2, 1]
    count := 0 }

/-- The constructor: throws `invalid_argument` (a configuration error)
unless 0 < p < 1. -/
def mk? (p : ℚ) : Except AccError p2_quantile_accumulator :=
  if p ≤ 0 ∨ 1 ≤ p then .error .ConfigurationError
  else .ok (initState p)

/-- `parabolic(i, d)` : piecewise-parabolic marker interpolation. -/
def parabolic (q : List ℚ) (n : List ℤ) (i : ℕ) (d : ℤ) : ℚ :=
  let qi := q.getD i 0
  let qim1 := q.getD (i - 1) 0
  let qip1 := q.getD (i + 1) 0
  let ni := n.getD i 0
  let nim1 := n.getD (i - 1) 0
  let nip1 := n.getD (i + 1) 0
  let num := (d : ℚ) / ((nip1 - nim1 : ℤ) : ℚ) *
    (((ni - nim1 + d : ℤ) : ℚ) * (qip1 - qi) / ((nip1 - ni : ℤ) : ℚ) +
     ((nip1 - ni - d : ℤ) : ℚ) * (qi - qim1) / ((ni - nim1 : ℤ) : ℚ))
  qi + num

/-- `linear(i, d)` : linear marker interpolation fallback. -/
def linear (q : List ℚ) (n : List ℤ) (i : ℕ) (d : ℤ) : ℚ :=
  let j := ((i : ℤ) + d).toNat
  q.getD i 0 + (d : ℚ) * (q.getD j 0 - q.getD i 0) /
    ((n.getD j 0 - n.getD i 0 : ℤ) : ℚ)

/-- One step of the marker-adjustment loop (`for i in 1..3`). -/
def adjustMarker (np : List ℚ) (st : List ℚ × List ℤ) (i : ℕ) :
    List ℚ × List ℤ :=
  let q := st.1
  let n := st.2
  let d : ℚ := np.getD i 0 - ((n.getD i 0 : ℤ) : ℚ)
  if (d ≥ 1 ∧ n.getD (i + 1) 0 - n.getD i 0 > 1) ∨
     (d ≤ -1 ∧ n.getD (i - 1) 0 - n.getD i 0 < -1) then
    let di : ℤ := if d ≥ 0 then 1 else -1
    let qn := parabolic q n i di
    let qn' := if qn ≤ q.getD (i - 1) 0 ∨ q.getD (i + 1) 0 ≤ qn then
        linear q n i di
      else qn
    (q.set i qn', n.set i (n.getD i 0 + di))
  else (q, n)

/-- `operator+=(const T&)` : the P² update.  The first five observations
are stored directly (sorted at the fifth); afterwards the cell search,
end-marker clamping, position bookkeeping and marker adjustment follow
the source line by line. -/
def addValue (s : p2_quantile_accumulator) (x : ℚ) :
    p2_quantile_accumulator :=
  let count' := s.count + 1
  if count' ≤ 5 then
    let q' := s.q.set (count' - 1) x
    let q'' := if count' = 5 then q'.insertionSort (· ≤ ·) else q'
    { s with count := count', q := q'' }
  else
    let getQ := fun i => s.q.getD i 0
    let cell : List ℚ × ℕ :=
      if x < getQ 0 then (s.q.set 0 x, 0)
      else if x < getQ 1 then (s.q, 0)
      else if x < getQ 2 then (s.q, 1)
      else if x < getQ 3 then (s.q, 2)
      else if x < getQ 4 then (s.q, 3)
      else (s.q.set 4 x, 3)
    let q1 := cell.1
    let k := cell.2
    let n1 := (List.range 5).map
      (fun i => if k + 1 ≤ i then s.n.getD i 0 + 1 else s.n.getD i 0)
    let np1 := (List.range 5).map
      (fun i => s.n_prime.getD i 0 + s.dn.getD i 0)
    let st := adjustMarker np1 (adjustMarker np1 (adjustMarker np1 (q1, n1) 1) 2) 3
    { s with count := count', q := st.1, n := st.2, n_prime := np1 }

/-- `operator+=(const p2_quantile_accumulator&)` : nothing when the
other is empty; while the receiver is in its initialization phase the
other's stored values are replayed as plain updates; otherwise the
marker heights are blended by count weights. -/
def merge (s other : p2_quantile_accumulator) : p2_quantile_accumulator :=
  if other.count = 0 then s
  else if s.count < 5 then
    (other.q.take (min other.count 5)).foldl addValue s
  else
    let w1 := (s.count : ℚ) / ((s.count + other.count : ℕ) : ℚ)
    let w2 := 1 - w1
    { s with
      q := (List.range 5).map
        (fun i => w1 * s.q.getD i 0 + w2 * other.q.getD i 0)
      count := s.count + other.count }

/-- `eval()` : before five observations, the median of the stored
prefix; afterwards the middle marker. -/
def eval (s : p2_quantile_accumulator) : ℚ :=
  if s.count < 5 then
    let sorted := (s.q.take s.count).insertionSort (· ≤ ·)
    (sorted ++ s.q.drop s.count).getD (s.count / 2) 0
  else s.q.getD 2 0

def foldList (s : p2_quantile_accumulator) (l : List ℚ) :
    p2_quantile_accumulator :=
  l.foldl addValue s

end p2_quantile_accumulator

/-! ## histogram_accumulator (accumulators/histogram.hpp) -/

structure histogram_accumulator where
  min_ : ℚ
  max_ : ℚ
  num_bins_ : ℕ
  bin_width_ : ℚ
  counts_ : List ℕ
  underflow_ : ℕ
  overflow_ : ℕ
  total_ : ℕ
deriving DecidableEq, Repr

namespace histogram_accumulator

/-- The constructor: validates min < max and a positive bin count,
otherwise throws `invalid_argument` (a configuration error). -/
def mk? (mn mx : ℚ) (num_bins : ℕ) : Except AccError histogram_accumulator :=
  if mn ≥ mx then .error .ConfigurationError
  else if num_bins = 0 then .error .ConfigurationError
  else .ok
    { min_ := mn, max_ := mx, num_bins_ := num_bins
      bin_width_ := (mx - mn) / (num_bins : ℚ)
      counts_ := List.replicate num_bins 0
      underflow_ := 0, overflow_ := 0, total_ := 0 }

/-- `operator+=(const T&)` : counts the value into the underflow bin,
the overflow bin, or the clamped regular bin. -/
def addValue (s : histogram_accumulator) (v : ℚ) : histogram_accumulator :=
  let s1 := { s with total_ := s.total_ + 1 }
  if v < s1.min_ then { s1 with underflow_ := s1.underflow_ + 1 }
  else if v ≥ s1.max_ then { s1 with overflow_ := s1.overflow_ + 1 }
  else
    let bin := min (Int.toNat ⌊(v - s1.min_) / s1.bin_width_⌋)
      (s1.num_bins_ - 1)
    { s1 with counts_ := s1.counts_.set bin (s1.counts_.getD bin 0 + 1) }

/-- `operator+=(const histogram_accumulator&)` : throws
`invalid_argument` (a type-mismatch error) before mutating anything when
the bin configurations differ; otherwise adds the per-bin counts (the
source loop runs over the `num_bins_` indices), underflow, overflow and
total element-wise. -/
def merge (s other : histogram_accumulator) :
    Except AccError histogram_accumulator :=
  if s.min_ ≠ other.min_ ∨ s.max_ ≠ other.max_ ∨
      s.num_bins_ ≠ other.num_bins_ then
    .error .TypeMismatchError
  else
    .ok { s with
      counts_ := (List.range s.num_bins_).map
        (fun i => s.counts_.getD i 0 + other.counts_.getD i 0)
      underflow_ := s.underflow_ + other.underflow_
      overflow_ := s.overflow_ + other.overflow_
      total_ := s.total_ + other.total_ }

end histogram_accumulator

/-! ## sliding_window_accumulator (core/distributed.hpp)

The wrapped accumulator type is a parameter (an `AccM` instance); the
mutable cache of the source is part of the state. -/

structure sliding_window_accumulator (σ α : Type) where
  window_size_ : ℕ
  values_ : List α
  cached_acc_ : σ
  cache_valid_ : Bool

namespace sliding_window_accumulator

/-- The constructor: throws `invalid_argument` (a configuration error)
when the window size is zero; otherwise starts with an empty buffer and
an invalid cache holding a default-constructed accumulator. -/
def mk? {σ α β : Type} (A : AccM σ α β) (k : ℕ) :
    Except AccError (sliding_window_accumulator σ α) :=
  if k = 0 then .error .ConfigurationError
  else .ok ⟨k, [], A.ident, false⟩

/-- `operator+=(const T&)` : push the value, evict from the front when
the buffer exceeds the window, invalidate the cache. -/
def addValue {σ α : Type} (s : sliding_window_accumulator σ α) (v : α) :
    sliding_window_accumulator σ α :=
  let vals := s.values_ ++ [v]
  let vals2 := if vals.length > s.window_size_ then vals.tail else vals
  { s with values_ := vals2, cache_valid_ := false }

/-- `operator+=(const sliding_window_accumulator&)` : replays the
other's retained values as plain updates. -/
def merge {σ α : Type} (s o : sliding_window_accumulator σ α) :
    sliding_window_accumulator σ α :=
  o.values_.foldl addValue s

/-- `rebuild_cache()` : fold the retained values into a fresh wrapped
accumulator. -/
def rebuild {σ α β : Type} (A : AccM σ α β)
    (s : sliding_window_accumulator σ α) : σ :=
  s.values_.foldl A.upd A.ident

/-- `eval()` : the wrapped accumulator's result, recomputed from the
buffer when the cache is invalid. -/
def eval {σ α β : Type} (A : AccM σ α β)
    (s : sliding_window_accumulator σ α) : β :=
  if s.cache_valid_ then A.evalf s.cached_acc_ else A.evalf (rebuild A s)

/-- The cache write performed by a (const) read: when invalid, the cache
is rebuilt from the buffer and marked valid. -/
def query {σ α β : Type} (A : AccM σ α β)
    (s : sliding_window_accumulator σ α) :
    sliding_window_accumulator σ α :=
  if s.cache_valid_ then s
  else { s with cached_acc_ := rebuild A s, cache_valid_ := true }

end sliding_window_accumulator

/-- Reachability alphabet for the sliding window: value updates, merges
with another window, and reads (which touch only the mutable cache). -/
inductive SWOp (σ α : Type) where
  | upd (v : α)
  | mrg (o : sliding_window_accumulator σ α)
  | query

def swStep {σ α β : Type} (A : AccM σ α β)
    (s : sliding_window_accumulator σ α) :
    SWOp σ α → sliding_window_accumulator σ α
  | .upd v => s.addValue v
  | .mrg o => s.merge o
  | .query => sliding_window_accumulator.query A s

/-- Run a sequence of operations from the freshly constructed window. -/
def swRun {σ α β : Type} (A : AccM σ α β) (k : ℕ)
    (ops : List (SWOp σ α)) : sliding_window_accumulator σ α :=
  ops.foldl (swStep A) ⟨k, [], A.ident, false⟩

/-- The stream of values pushed into the window by a run: updates push
their datum, merges push the other window's retained values in order,
reads push nothing. -/
def swPushes {σ α : Type} : List (SWOp σ α) → List α
  | [] => []
  | .upd v :: t => v :: swPushes t
  | .mrg o :: t => o.values_ ++ swPushes t
  | .query :: t => swPushes t

/-- The last `k` elements of a list (specification-side quantity). -/
def takeLast {α : Type} (k : ℕ) (l : List α) : List α :=
  l.drop (l.length - k)

/-- The sliding-window cache invariant: a valid cache holds exactly the
fold of the retained values. -/
def swCacheInv {σ α β : Type} (A : AccM σ α β)
    (s : sliding_window_accumulator σ α) : Prop :=
  s.cache_valid_ = true → s.cached_acc_ = sliding_window_accumulator.rebuild A s

/-! ## Helper lemmas -/

namespace kbn_sum

/-- In exact arithmetic the KBN correction always cancels to zero. -/
theorem addValue_correction (s : kbn_sum) (v : ℚ) :
    (s.addValue v).correction = 0 := by
  unfold addValue
  dsimp only
  split <;> ring

/-- In exact arithmetic an update adds exactly the incoming value. -/
theorem addValue_eval (s : kbn_sum) (v : ℚ) :
    (s.addValue v).eval = s.eval + v := by
  unfold addValue eval
  dsimp only
  split <;> ring

/-- The state after an update is determined by the previous total. -/
theorem addValue_eq (s : kbn_sum) (v : ℚ) :
    s.addValue v = ⟨s.eval + v, 0⟩ := by
  have h1 := addValue_correction s v
  have h2 := addValue_eval s v
  cases hs : s.addValue v with
  | mk a c =>
    rw [hs] at h1 h2
    simp only at h1
    subst h1
    unfold eval at h2
    simp only [add_zero] at h2
    simp only [eval]
    exact congrArg₂ kbn_sum.mk h2 rfl

/-- Reachable states have zero correction. -/
theorem foldList_correction (s : kbn_sum) (l : List ℚ)
    (h : s.correction = 0) : (s.foldList l).correction = 0 := by
  induction l generalizing s with
  | nil => exact h
  | cons v t ih =>
    simp only [foldList, List.foldl_cons] at *
    exact ih _ (addValue_correction s v)

theorem foldList_eval (s : kbn_sum) (l : List ℚ) :
    (s.foldList l).eval = s.eval + l.sum := by
  induction l generalizing s with
  | nil => simp [foldList, eval]
  | cons v t ih =>
    simp only [foldList, List.foldl_cons, List.sum_cons] at *
    rw [ih, addValue_eval]
    ring

/-- Folding from the identity yields exactly the list sum with no
residual correction. -/
theorem foldList_init_kbn (l : List ℚ) :
    kbn_sum.foldList .init l = ⟨l.sum, 0⟩ := by
  have hc := foldList_correction .init l rfl
  have he := foldList_eval .init l
  cases hs : kbn_sum.foldList .init l with
  | mk a c =>
    rw [hs] at hc he
    simp only at hc
    subst hc
    simp only [eval, init, add_zero, zero_add] at he
    exact congrArg₂ kbn_sum.mk he rfl

theorem eval_mk (a b : ℚ) : kbn_sum.eval ⟨a, b⟩ = a + b := rfl

/-- Merging the folds of two groups equals folding their concatenation:
in exact arithmetic the kbn_sum merge is a homomorphism on folds. -/
theorem fold_merge_kbn (l1 l2 : List ℚ) :
    (kbn_sum.foldList .init l1).merge (kbn_sum.foldList .init l2) =
      kbn_sum.foldList .init (l1 ++ l2) := by
  rw [kbn_sum.foldList_init_kbn, kbn_sum.foldList_init_kbn, kbn_sum.foldList_init_kbn]
  unfold kbn_sum.merge
  rw [kbn_sum.addValue_eq]
  simp [kbn_sum.eval_mk, List.sum_append]

end kbn_sum

namespace min_accumulator

theorem addValue_of_empty_min (s : min_accumulator) (v : ℚ)
    (h : s.has_value = false) : s.addValue v = ⟨v, true⟩ := by
  unfold addValue
  rw [if_pos (Or.inl h)]

theorem addValue_of_lt (s : min_accumulator) (v : ℚ)
    (h : v < s.min_value) : s.addValue v = ⟨v, true⟩ := by
  unfold addValue
  rw [if_pos (Or.inr h)]

theorem addValue_of_ge (s : min_accumulator) (v : ℚ)
    (h1 : s.has_value = true) (h2 : s.min_value ≤ v) : s.addValue v = s := by
  unfold addValue
  rw [if_neg]
  push_neg
  exact ⟨by simp [h1], h2⟩

theorem merge_of_empty_min (a b : min_accumulator)
    (h : b.has_value = false) : a.merge b = a := by
  unfold merge
  simp [h]

theorem merge_of_has_min (a b : min_accumulator)
    (h : b.has_value = true) : a.merge b = a.addValue b.min_value := by
  unfold merge
  simp [h]

/-- Merging after an update equals updating after the merge: the single
comparison performed by the merge carries exactly the other side's
minimum. -/
theorem merge_addValue_min (a b : min_accumulator) (v : ℚ) :
    a.merge (b.addValue v) = (a.merge b).addValue v := by
  rcases hb : b.has_value with _ | _
  · rw [addValue_of_empty_min b v hb, merge_of_empty_min a b hb,
      merge_of_has_min a ⟨v, true⟩ rfl]
  · rw [merge_of_has_min a b hb]
    rcases lt_or_ge v b.min_value with hv | hv
    · rw [addValue_of_lt b v hv, merge_of_has_min a ⟨v, true⟩ rfl]
      rcases ha : a.has_value with _ | _
      · rw [addValue_of_empty_min a v ha, addValue_of_empty_min a b.min_value ha,
          addValue_of_lt ⟨b.min_value, true⟩ v hv]
      · rcases lt_or_ge b.min_value a.min_value with hba | hba
        · rw [addValue_of_lt a v (lt_trans hv hba),
            addValue_of_lt a b.min_value hba,
            addValue_of_lt ⟨b.min_value, true⟩ v hv]
        · rw [addValue_of_ge a b.min_value ha hba]
    · rw [addValue_of_ge b v hb hv, merge_of_has_min a b hb]
      rcases ha : a.has_value with _ | _
      · rw [addValue_of_empty_min a b.min_value ha,
          addValue_of_ge ⟨b.min_value, true⟩ v rfl hv]
      · rcases lt_or_ge b.min_value a.min_value with hba | hba
        · rw [addValue_of_lt a b.min_value hba,
            addValue_of_ge ⟨b.min_value, true⟩ v rfl hv]
        · rw [addValue_of_ge a b.min_value ha hba,
            addValue_of_ge a v ha (le_trans hba hv)]

theorem foldList_snoc_min (s : min_accumulator) (t : List ℚ)
    (v : ℚ) : s.foldList (t ++ [v]) = (s.foldList t).addValue v := by
  simp [foldList, List.foldl_append]

theorem fold_merge_min (tmax : ℚ) (l1 l2 : List ℚ) :
    (foldList (init tmax) l1).merge (foldList (init tmax) l2) =
      foldList (init tmax) (l1 ++ l2) := by
  induction l2 using List.reverseRecOn with
  | nil =>
    rw [merge_of_empty_min _ _ rfl, List.append_nil]
  | append_singleton t v ih =>
    rw [foldList_snoc_min, merge_addValue_min, ih, ← List.append_assoc,
      ← foldList_snoc_min]

end min_accumulator

namespace max_accumulator

theorem addValue_of_empty_max (s : max_accumulator) (v : ℚ)
    (h : s.has_value = false) : s.addValue v = ⟨v, true⟩ := by
  unfold addValue
  rw [if_pos (Or.inl h)]

theorem addValue_of_gt (s : max_accumulator) (v : ℚ)
    (h : s.max_value < v) : s.addValue v = ⟨v, true⟩ := by
  unfold addValue
  rw [if_pos (Or.inr h)]

theorem addValue_of_le (s : max_accumulator) (v : ℚ)
    (h1 : s.has_value = true) (h2 : v ≤ s.max_value) : s.addValue v = s := by
  unfold addValue
  rw [if_neg]
  push_neg
  exact ⟨by simp [h1], h2⟩

theorem merge_of_empty_max (a b : max_accumulator)
    (h : b.has_value = false) : a.merge b = a := by
  unfold merge
  simp [h]

theorem merge_of_has_max (a b : max_accumulator)
    (h : b.has_value = true) : a.merge b = a.addValue b.max_value := by
  unfold merge
  simp [h]

theorem merge_addValue_max (a b : max_accumulator) (v : ℚ) :
    a.merge (b.addValue v) = (a.merge b).addValue v := by
  rcases hb : b.has_value with _ | _
  · rw [addValue_of_empty_max b v hb, merge_of_empty_max a b hb,
      merge_of_has_max a ⟨v, true⟩ rfl]
  · rw [merge_of_has_max a b hb]
    rcases lt_or_ge b.max_value v with hv | hv
    · rw [addValue_of_gt b v hv, merge_of_has_max a ⟨v, true⟩ rfl]
      rcases ha : a.has_value with _ | _
      · rw [addValue_of_empty_max a v ha, addValue_of_empty_max a b.max_value ha,
          addValue_of_gt ⟨b.max_value, true⟩ v hv]
      · rcases lt_or_ge a.max_value b.max_value with hba | hba
        · rw [addValue_of_gt a v (lt_trans hba hv),
            addValue_of_gt a b.max_value hba,
            addValue_of_gt ⟨b.max_value, true⟩ v hv]
        · rw [addValue_of_le a b.max_value ha hba]
    · rw [addValue_of_le b v hb hv, merge_of_has_max a b hb]
      rcases ha : a.has_value with _ | _
      · rw [addValue_of_empty_max a b.max_value ha,
          addValue_of_le ⟨b.max_value, true⟩ v rfl hv]
      · rcases lt_or_ge a.max_value b.max_value with hba | hba
        · rw [addValue_of_gt a b.max_value hba,
            addValue_of_le ⟨b.max_value, true⟩ v rfl hv]
        · rw [addValue_of_le a b.max_value ha hba,
            addValue_of_le a v ha (le_trans hv hba)]

theorem foldList_snoc_max (s : max_accumulator) (t : List ℚ)
    (v : ℚ) : s.foldList (t ++ [v]) = (s.foldList t).addValue v := by
  simp [foldList, List.foldl_append]

theorem fold_merge_max (tlow : ℚ) (l1 l2 : List ℚ) :
    (foldList (init tlow) l1).merge (foldList (init tlow) l2) =
      foldList (init tlow) (l1 ++ l2) := by
  induction l2 using List.reverseRecOn with
  | nil =>
    rw [merge_of_empty_max _ _ rfl, List.append_nil]
  | append_singleton t v ih =>
    rw [foldList_snoc_max, merge_addValue_max, ih, ← List.append_assoc,
      ← foldList_snoc_max]

end max_accumulator

namespace count_accumulator

theorem foldList_count (s : count_accumulator) (l : List ℚ) :
    (s.foldList l).count = s.count + l.length := by
  induction l generalizing s with
  | nil => simp [foldList]
  | cons v t ih =>
    simp only [foldList, List.foldl_cons] at *
    rw [ih]
    simp [addValue]
    omega

theorem fold_merge_count (l1 l2 : List ℚ) :
    (count_accumulator.foldList .init l1).merge
      (count_accumulator.foldList .init l2) =
      count_accumulator.foldList .init (l1 ++ l2) := by
  have key : ∀ x y : count_accumulator, x.count = y.count → x = y := by
    intro x y h
    cases x
    cases y
    simpa using h
  apply key
  unfold merge
  rw [foldList_count, foldList_count, foldList_count]
  simp [init, List.length_append]

end count_accumulator

theorem listMean_nil : listMean [] = 0 := by
  simp [listMean]

theorem listM2_nil : listM2 [] = 0 := by
  simp [listM2, sqSum]

theorem listMean_snoc (t : List ℚ) (v : ℚ) :
    listMean (t ++ [v]) =
      listMean t + (v - listMean t) / ((t.length : ℚ) + 1) := by
  rcases eq_or_ne t [] with h | h
  · subst h
    simp [listMean]
  · have hn : (t.length : ℚ) ≠ 0 := by
      exact_mod_cast fun hc => h (List.length_eq_zero.mp hc)
    have hn1 : (t.length : ℚ) + 1 ≠ 0 := by positivity
    unfold listMean
    rw [List.sum_append, List.length_append]
    push_cast
    field_simp
    ring

theorem listM2_snoc (t : List ℚ) (v : ℚ) :
    listM2 (t ++ [v]) = listM2 t +
      (v - listMean t) *
        (v - (listMean t + (v - listMean t) / ((t.length : ℚ) + 1))) := by
  rcases eq_or_ne t [] with h | h
  · subst h
    simp [listM2, listMean, sqSum]
  · have hn : (t.length : ℚ) ≠ 0 := by
      exact_mod_cast fun hc => h (List.length_eq_zero.mp hc)
    have hn1 : (t.length : ℚ) + 1 ≠ 0 := by positivity
    unfold listM2 listMean sqSum
    rw [List.map_append, List.sum_append, List.sum_append, List.length_append]
    push_cast
    field_simp
    ring

namespace welford_accumulator

theorem foldList_snoc_welford (s : welford_accumulator) (t : List ℚ)
    (v : ℚ) : s.foldList (t ++ [v]) = (s.foldList t).addValue v := by
  simp [foldList, List.foldl_append]

/-- Characterization of the reachable Welford states: after folding a
list from the identity, the count is the list length, the mean holds the
arithmetic mean and M2 holds the sum of squared deviations (both with
zero correction, since KBN arithmetic is exact over `ℚ`). -/
theorem foldList_init_welford (l : List ℚ) :
    welford_accumulator.foldList .init l =
      ⟨l.length, ⟨listMean l, 0⟩, ⟨listM2 l, 0⟩⟩ := by
  induction l using List.reverseRecOn with
  | nil =>
    simp only [foldList, List.foldl_nil, init, kbn_sum.init, List.length_nil]
    rw [listMean_nil, listM2_nil]
  | append_singleton t v ih =>
    rw [foldList_snoc_welford, ih]
    unfold addValue
    dsimp only
    rw [kbn_sum.addValue_eq, kbn_sum.addValue_eq, listMean_snoc, listM2_snoc]
    simp only [kbn_sum.eval_mk, add_zero, List.length_append,
      List.length_singleton, welford_accumulator.mk.injEq,
      kbn_sum.mk.injEq]
    push_cast
    simp

/-- The Welford merge is a homomorphism on folds: merging the folds of
two groups gives exactly the fold of their concatenation (exact
arithmetic). -/
theorem fold_merge_welford (l1 l2 : List ℚ) :
    (welford_accumulator.foldList .init l1).merge
      (welford_accumulator.foldList .init l2) =
      welford_accumulator.foldList .init (l1 ++ l2) := by
  rcases eq_or_ne l2 [] with h2 | h2
  · subst h2
    rw [List.append_nil]
    have hc : (welford_accumulator.foldList .init ([] : List ℚ)).count = 0 := rfl
    unfold merge
    rw [if_pos hc]
  rcases eq_or_ne l1 [] with h1 | h1
  · subst h1
    rw [List.nil_append]
    have hc2 : (welford_accumulator.foldList .init l2).count ≠ 0 := by
      rw [foldList_init_welford]
      exact fun hc => h2 (List.length_eq_zero.mp hc)
    have hc1 : (welford_accumulator.foldList .init ([] : List ℚ)).count = 0 := rfl
    unfold merge
    rw [if_neg hc2, if_pos hc1]
  · rw [foldList_init_welford, foldList_init_welford, foldList_init_welford]
    have hn1 : l1.length ≠ 0 := fun hc => h1 (List.length_eq_zero.mp hc)
    have hn2 : l2.length ≠ 0 := fun hc => h2 (List.length_eq_zero.mp hc)
    have hq1 : (l1.length : ℚ) ≠ 0 := Nat.cast_ne_zero.mpr hn1
    have hq2 : (l2.length : ℚ) ≠ 0 := Nat.cast_ne_zero.mpr hn2
    have hq12 : (l1.length : ℚ) + (l2.length : ℚ) ≠ 0 := by
      have := Nat.cast_pos (α := ℚ) |>.mpr (Nat.pos_of_ne_zero hn1)
      have := Nat.cast_nonneg (α := ℚ) l2.length
      intro hc
      linarith
    unfold merge
    dsimp only
    rw [if_neg hn2, if_neg hn1]
    rw [kbn_sum.addValue_eq, kbn_sum.addValue_eq]
    simp only [kbn_sum.eval_mk, add_zero, kbn_sum.ofValue,
      welford_accumulator.mk.injEq, kbn_sum.mk.injEq, List.length_append,
      and_true, true_and]
    refine ⟨?_, ?_⟩
    · unfold listMean
      rw [List.sum_append, List.length_append]
      push_cast
      field_simp
      try ring
    · unfold listM2 listMean sqSum
      rw [List.map_append, List.sum_append, List.sum_append,
        List.length_append]
      push_cast
      field_simp
      try ring

end welford_accumulator

/-- The result of a value update always has a value. -/
theorem min_addValue_always_has (s : min_accumulator) (v : ℚ) :
    (s.addValue v).has_value = true := by
  rcases hs : s.has_value with _ | _
  · rw [min_accumulator.addValue_of_empty_min s v hs]
  · rcases lt_or_ge v s.min_value with h | h
    · rw [min_accumulator.addValue_of_lt s v h]
    · rw [min_accumulator.addValue_of_ge s v hs h]
      exact hs

theorem minStep_has_false_iff (s : min_accumulator) (op : MinOp) :
    (minStep s op).has_value = false ↔
      s.has_value = false ∧ MinOpKeepsEmpty op := by
  cases op with
  | upd v =>
    simp [minStep, min_addValue_always_has, MinOpKeepsEmpty]
  | mrg o =>
    rcases ho : o.has_value with _ | _
    · rw [minStep, min_accumulator.merge_of_empty_min s o ho]
      simp [MinOpKeepsEmpty, ho]
    · rw [minStep, min_accumulator.merge_of_has_min s o ho]
      simp [MinOpKeepsEmpty, ho, min_addValue_always_has]

theorem min_foldl_has_false_iff (ops : List MinOp) (s : min_accumulator) :
    ((ops.foldl minStep s).has_value = false) ↔
      (s.has_value = false ∧ ∀ op ∈ ops, MinOpKeepsEmpty op) := by
  induction ops generalizing s with
  | nil => simp
  | cons op t ih =>
    rw [List.foldl_cons, ih, minStep_has_false_iff]
    constructor
    · rintro ⟨⟨h1, h2⟩, h3⟩
      refine ⟨h1, fun x hx => ?_⟩
      rcases List.mem_cons.mp hx with rfl | hx2
      · exact h2
      · exact h3 x hx2
    · rintro ⟨h1, h2⟩
      exact ⟨⟨h1, h2 op (List.mem_cons_self op t)⟩,
        fun x hx => h2 x (List.mem_cons_of_mem op hx)⟩

theorem max_addValue_always_has (s : max_accumulator) (v : ℚ) :
    (s.addValue v).has_value = true := by
  rcases hs : s.has_value with _ | _
  · rw [max_accumulator.addValue_of_empty_max s v hs]
  · rcases lt_or_ge s.max_value v with h | h
    · rw [max_accumulator.addValue_of_gt s v h]
    · rw [max_accumulator.addValue_of_le s v hs h]
      exact hs

theorem maxStep_has_false_iff (s : max_accumulator) (op : MaxOp) :
    (maxStep s op).has_value = false ↔
      s.has_value = false ∧ MaxOpKeepsEmpty op := by
  cases op with
  | upd v =>
    simp [maxStep, max_addValue_always_has, MaxOpKeepsEmpty]
  | mrg o =>
    rcases ho : o.has_value with _ | _
    · rw [maxStep, max_accumulator.merge_of_empty_max s o ho]
      simp [MaxOpKeepsEmpty, ho]
    · rw [maxStep, max_accumulator.merge_of_has_max s o ho]
      simp [MaxOpKeepsEmpty, ho, max_addValue_always_has]

theorem max_foldl_has_false_iff (ops : List MaxOp) (s : max_accumulator) :
    ((ops.foldl maxStep s).has_value = false) ↔
      (s.has_value = false ∧ ∀ op ∈ ops, MaxOpKeepsEmpty op) := by
  induction ops generalizing s with
  | nil => simp
  | cons op t ih =>
    rw [List.foldl_cons, ih, maxStep_has_false_iff]
    constructor
    · rintro ⟨⟨h1, h2⟩, h3⟩
      refine ⟨h1, fun x hx => ?_⟩
      rcases List.mem_cons.mp hx with rfl | hx2
      · exact h2
      · exact h3 x hx2
    · rintro ⟨h1, h2⟩
      exact ⟨⟨h1, h2 op (List.mem_cons_self op t)⟩,
        fun x hx => h2 x (List.mem_cons_of_mem op hx)⟩

/-! ## Claims C1 and C10 -/

/-- C1: for each reducer (min, max, count, kbn_sum, welford), folding a
whole sequence equals merging the folds of the two groups of any split:
the merge behaves as if the other side's updates had been replayed in
order.  Over the exact-rational model the floating-point tolerance
becomes exact state equality. -/
theorem C1_merge_replays_fold :
    (∀ (tmax : ℚ) (l1 l2 : List ℚ),
      (min_accumulator.foldList (.init tmax) l1).merge
        (min_accumulator.foldList (.init tmax) l2) =
        min_accumulator.foldList (.init tmax) (l1 ++ l2)) ∧
    (∀ (tlow : ℚ) (l1 l2 : List ℚ),
      (max_accumulator.foldList (.init tlow) l1).merge
        (max_accumulator.foldList (.init tlow) l2) =
        max_accumulator.foldList (.init tlow) (l1 ++ l2)) ∧
    (∀ l1 l2 : List ℚ,
      (count_accumulator.foldList .init l1).merge
        (count_accumulator.foldList .init l2) =
        count_accumulator.foldList .init (l1 ++ l2)) ∧
    (∀ l1 l2 : List ℚ,
      (kbn_sum.foldList .init l1).merge (kbn_sum.foldList .init l2) =
        kbn_sum.foldList .init (l1 ++ l2)) ∧
    (∀ l1 l2 : List ℚ,
      (welford_accumulator.foldList .init l1).merge
        (welford_accumulator.foldList .init l2) =
        welford_accumulator.foldList .init (l1 ++ l2)) :=
  ⟨min_accumulator.fold_merge_min, max_accumulator.fold_merge_max,
    count_accumulator.fold_merge_count, kbn_sum.fold_merge_kbn,
    welford_accumulator.fold_merge_welford⟩

/-- C10: a min (resp. max) accumulator is empty after a run of updates
and merges exactly when the run contains no update and only merges with
empty accumulators; an empty accumulator evaluates to the sentinel
`numeric_limits<T>::max()` (resp. `lowest()`); and the first update
replaces the sentinel unconditionally, with no comparison against it. -/
theorem C10_empty_minmax_sentinels :
    (∀ (tmax : ℚ) (ops : List MinOp),
      ((minRun tmax ops).empty = true ↔ ∀ op ∈ ops, MinOpKeepsEmpty op)) ∧
    (∀ (tmax : ℚ) (ops : List MinOp),
      (∀ op ∈ ops, MinOpKeepsEmpty op) →
        (minRun tmax ops).eval tmax = tmax) ∧
    (∀ (s : min_accumulator) (v : ℚ),
      s.has_value = false → s.addValue v = ⟨v, true⟩) ∧
    (∀ (tlow : ℚ) (ops : List MaxOp),
      ((maxRun tlow ops).empty = true ↔ ∀ op ∈ ops, MaxOpKeepsEmpty op)) ∧
    (∀ (tlow : ℚ) (ops : List MaxOp),
      (∀ op ∈ ops, MaxOpKeepsEmpty op) →
        (maxRun tlow ops).eval tlow = tlow) ∧
    (∀ (s : max_accumulator) (v : ℚ),
      s.has_value = false → s.addValue v = ⟨v, true⟩) := by
  have hmin : ∀ (tmax : ℚ) (ops : List MinOp),
      ((minRun tmax ops).has_value = false ↔
        ∀ op ∈ ops, MinOpKeepsEmpty op) := by
    intro tmax ops
    rw [minRun, min_foldl_has_false_iff]
    simp [min_accumulator.init]
  have hmax : ∀ (tlow : ℚ) (ops : List MaxOp),
      ((maxRun tlow ops).has_value = false ↔
        ∀ op ∈ ops, MaxOpKeepsEmpty op) := by
    intro tlow ops
    rw [maxRun, max_foldl_has_false_iff]
    simp [max_accumulator.init]
  refine ⟨?_, ?_, ?_, ?_, ?_, ?_⟩
  · intro tmax ops
    rw [← hmin tmax ops]
    simp [min_accumulator.empty]
  · intro tmax ops h
    have := (hmin tmax ops).mpr h
    rw [min_accumulator.eval, if_neg]
    simp [this]
  · exact min_accumulator.addValue_of_empty_min
  · intro tlow ops
    rw [← hmax tlow ops]
    simp [max_accumulator.empty]
  · intro tlow ops h
    have := (hmax tlow ops).mpr h
    rw [max_accumulator.eval, if_neg]
    simp [this]
  · exact max_accumulator.addValue_of_empty_max

/-- Witness for C10: a merge with an empty accumulator keeps the run
empty and evaluating yields the sentinel; a first update on an empty
accumulator stores the value even though it exceeds the sentinel. -/
theorem C10_empty_minmax_sentinels_witness :
    (minRun 7 [MinOp.mrg (min_accumulator.init 9)]).eval 7 = 7 ∧
    min_accumulator.addValue ⟨7, false⟩ 42 = ⟨42, true⟩ ∧
    (maxRun (-7) [MaxOp.mrg (max_accumulator.init 0)]).eval (-7) = -7 ∧
    max_accumulator.addValue ⟨-7, false⟩ (-42) = ⟨-42, true⟩ := by
  refine ⟨C10_empty_minmax_sentinels.2.1 7 _ ?_,
    C10_empty_minmax_sentinels.2.2.1 _ 42 rfl,
    C10_empty_minmax_sentinels.2.2.2.2.1 (-7) _ ?_,
    C10_empty_minmax_sentinels.2.2.2.2.2 _ (-42) rfl⟩
  · intro op hop
    rcases List.mem_singleton.mp hop with rfl
    exact rfl
  · intro op hop
    rcases List.mem_singleton.mp hop with rfl
    exact rfl

/-! ## Claims C3 and C4 -/

/-- C3: for `kbn_sum`, `result()` returns the running sum plus the
correction term, and `merge(other)` is exactly a single update with
`other.result()` (other's sum plus its correction): in particular the
merge result depends on `other` only through that total, discarding the
correction as a separate quantity. -/
theorem C3_kbn_merge_is_single_update :
    (∀ s : kbn_sum, s.eval = s.sum + s.correction) ∧
    (∀ a b : kbn_sum, a.merge b = a.addValue (b.sum + b.correction)) ∧
    (∀ a b b' : kbn_sum, b.eval = b'.eval → a.merge b = a.merge b') := by
  refine ⟨fun s => rfl, fun a b => rfl, fun a b b' h => ?_⟩
  unfold kbn_sum.merge
  rw [h]

/-- Witness for C3 at concrete inputs: `⟨2, 3⟩` and `⟨5, 0⟩` have the
same total, so merging either into `⟨1, 0⟩` gives the same state. -/
theorem C3_kbn_merge_is_single_update_witness :
    kbn_sum.merge ⟨1, 0⟩ ⟨2, 3⟩ = kbn_sum.merge ⟨1, 0⟩ ⟨5, 0⟩ :=
  C3_kbn_merge_is_single_update.2.2 ⟨1, 0⟩ ⟨2, 3⟩ ⟨5, 0⟩
    (by norm_num [kbn_sum.eval_mk])

/-- C4: the Welford merge returns the receiver unchanged when the other
side is empty, becomes a copy of the other when the receiver is empty,
and otherwise combines count, count-weighted mean and the
parallel-variance M2 formula. -/
theorem C4_welford_parallel_merge :
    (∀ s other : welford_accumulator, other.count = 0 → s.merge other = s) ∧
    (∀ s other : welford_accumulator,
      s.count = 0 → other.count ≠ 0 → s.merge other = other) ∧
    (∀ s other : welford_accumulator, s.count ≠ 0 → other.count ≠ 0 →
      (s.merge other).count = s.count + other.count ∧
      (s.merge other).mean.eval =
        ((s.count : ℚ) * s.mean.eval + (other.count : ℚ) * other.mean.eval) /
          ((s.count : ℚ) + (other.count : ℚ)) ∧
      (s.merge other).m2.eval =
        s.m2.eval + other.m2.eval +
          (other.mean.eval - s.mean.eval) * (other.mean.eval - s.mean.eval) *
            (s.count : ℚ) * (other.count : ℚ) /
            ((s.count : ℚ) + (other.count : ℚ))) := by
  refine ⟨fun s other h => ?_, fun s other h1 h2 => ?_, fun s other h1 h2 => ?_⟩
  · unfold welford_accumulator.merge
    rw [if_pos h]
  · unfold welford_accumulator.merge
    rw [if_neg h2, if_pos h1]
  · unfold welford_accumulator.merge
    rw [if_neg h2, if_neg h1]
    dsimp only
    refine ⟨rfl, ?_, ?_⟩
    · simp only [kbn_sum.ofValue, kbn_sum.eval_mk, add_zero]
      push_cast
      ring_nf
    · rw [kbn_sum.addValue_eval, kbn_sum.addValue_eval]
      push_cast
      ring

/-- Witness for C4: merging `{2}` with `{4}` (as Welford states) gives
count 2, mean 3 and M2 2. -/
theorem C4_welford_parallel_merge_witness :
    (welford_accumulator.merge ⟨2, ⟨3, 0⟩, ⟨5, 0⟩⟩ ⟨0, ⟨9, 0⟩, ⟨9, 0⟩⟩ =
      ⟨2, ⟨3, 0⟩, ⟨5, 0⟩⟩) ∧
    (welford_accumulator.merge ⟨1, ⟨2, 0⟩, ⟨0, 0⟩⟩ ⟨1, ⟨4, 0⟩, ⟨0, 0⟩⟩).count = 2 ∧
    (welford_accumulator.merge ⟨1, ⟨2, 0⟩, ⟨0, 0⟩⟩ ⟨1, ⟨4, 0⟩, ⟨0, 0⟩⟩).mean.eval = 3 ∧
    (welford_accumulator.merge ⟨1, ⟨2, 0⟩, ⟨0, 0⟩⟩ ⟨1, ⟨4, 0⟩, ⟨0, 0⟩⟩).m2.eval = 2 := by
  obtain ⟨hc, hm, h2⟩ := C4_welford_parallel_merge.2.2 ⟨1, ⟨2, 0⟩, ⟨0, 0⟩⟩
    ⟨1, ⟨4, 0⟩, ⟨0, 0⟩⟩ (by decide) (by decide)
  refine ⟨C4_welford_parallel_merge.1 _ _ rfl, hc, ?_, ?_⟩
  · rw [hm]
    norm_num [kbn_sum.eval_mk]
  · rw [h2]
    norm_num [kbn_sum.eval_mk]


/-! ## Claims C5 and C6 -/

/-- The second child of a sequential composition consumes exactly the
stream of the first child's cumulative results. -/
theorem seqFold_snd {σ₁ σ₂ α β γ : Type} (A : AccM σ₁ α β)
    (B : AccM σ₂ β γ) :
    ∀ (l : List α) (a : σ₁) (m : σ₂),
      (seqFold A B (a, m) l).2 = (runningEvals A a l).foldl B.upd m := by
  intro l
  induction l with
  | nil =>
    intro a m
    rfl
  | cons v t ih =>
    intro a m
    simp only [seqFold, List.foldl_cons, runningEvals, seqAddValue]
    exact ih _ _

/-- C5: a sequential composition updates the first child with the raw
datum and the second child with the first child's cumulative result;
consequently running-sum-then-running-max over {1,2,3} evaluates to 6
(the maximum of the partial sums), while a running max over the raw
data would give 3. -/
theorem C5_sequential_pipeline_cumulative :
    (∀ (σ₁ σ₂ α β γ : Type) (A : AccM σ₁ α β) (B : AccM σ₂ β γ)
        (s : σ₁ × σ₂) (v : α),
      seqAddValue A B s v =
        (A.upd s.1 v, B.upd s.2 (A.evalf (A.upd s.1 v)))) ∧
    (∀ (tlow : ℚ) (l : List ℚ),
      (seqFold kbnAcc (maxAcc tlow) (seqInit kbnAcc (maxAcc tlow)) l).2 =
        max_accumulator.foldList (.init tlow)
          (runningEvals kbnAcc kbn_sum.init l)) ∧
    (∀ tlow : ℚ,
      seqEval kbnAcc (maxAcc tlow)
        (seqFold kbnAcc (maxAcc tlow) (seqInit kbnAcc (maxAcc tlow))
          [1, 2, 3]) = 6) ∧
    (∀ tlow : ℚ,
      max_accumulator.eval tlow
        (max_accumulator.foldList (.init tlow) [1, 2, 3]) = 3) := by
  refine ⟨fun σ₁ σ₂ α β γ A B s v => rfl, ?_, ?_, ?_⟩
  · intro tlow l
    exact seqFold_snd kbnAcc (maxAcc tlow) l _ _
  · intro tlow
    simp only [seqFold, seqInit, seqEval, List.foldl_cons, List.foldl_nil,
      seqAddValue, kbnAcc, maxAcc, kbn_sum.addValue_eq, kbn_sum.eval_mk]
    norm_num [max_accumulator.addValue, max_accumulator.init,
      max_accumulator.eval, kbn_sum.init, kbn_sum.eval_mk]
  · intro tlow
    simp only [max_accumulator.foldList, List.foldl_cons, List.foldl_nil]
    norm_num [max_accumulator.addValue, max_accumulator.init,
      max_accumulator.eval]

/-- C6: a conditional composition switches its active branch according
to the predicate, discarding the inactive branch's state and resetting
the newly active branch to identity; fed {1,2,4,5} with predicate x<3
its state is the second branch folded over {4,5} only (result 9), while
the whole sequence sums to 12. -/
theorem C6_conditional_branch_switch :
    (∀ (σA σB α β γ : Type) (A : AccM σA α β) (B : AccM σB α γ)
        (pred : α → Bool) (a : σA) (v : α), pred v = false →
      condAddValue A B pred (.A a) v = .B (B.upd B.ident v)) ∧
    (∀ (σA σB α β γ : Type) (A : AccM σA α β) (B : AccM σB α γ)
        (pred : α → Bool) (b : σB) (v : α), pred v = true →
      condAddValue A B pred (.B b) v = .A (A.upd A.ident v)) ∧
    (condFold kbnAcc kbnAcc (fun x : ℚ => decide (x < 3))
        (condInit kbnAcc) [1, 2, 4, 5] =
      .B (kbn_sum.foldList .init [4, 5])) ∧
    (condEval kbnAcc kbnAcc
      (condFold kbnAcc kbnAcc (fun x : ℚ => decide (x < 3))
        (condInit kbnAcc) [1, 2, 4, 5]) = 9) ∧
    ((kbn_sum.foldList .init [1, 2, 4, 5]).eval = 12) := by
  have hfold : condFold kbnAcc kbnAcc (fun x : ℚ => decide (x < 3))
      (condInit kbnAcc) [1, 2, 4, 5] =
      .B (kbn_sum.foldList .init [4, 5]) := by
    simp only [condFold, condInit, List.foldl_cons, List.foldl_nil,
      condAddValue, kbnAcc, kbn_sum.foldList, kbn_sum.addValue_eq,
      kbn_sum.eval_mk]
    norm_num [kbn_sum.init, kbn_sum.eval_mk]
  refine ⟨fun σA σB α β γ A B pred a v h => by simp [condAddValue, h],
    fun σA σB α β γ A B pred b v h => by simp [condAddValue, h],
    hfold, ?_, ?_⟩
  · rw [hfold]
    simp only [condEval, kbnAcc, kbn_sum.foldList, List.foldl_cons,
      List.foldl_nil, kbn_sum.addValue_eq, kbn_sum.eval_mk]
    norm_num [kbn_sum.init, kbn_sum.eval_mk]
  · simp only [kbn_sum.foldList, List.foldl_cons, List.foldl_nil,
      kbn_sum.addValue_eq, kbn_sum.eval_mk]
    norm_num [kbn_sum.init, kbn_sum.eval_mk]

/-- Witness for C6 at a concrete switch: a datum failing the predicate
while the first branch is active moves to the second branch reset to
identity, and a datum passing it while the second branch is active
moves back to a fresh first branch. -/
theorem C6_conditional_branch_switch_witness :
    condAddValue kbnAcc kbnAcc (fun x : ℚ => decide (x < 3))
      (.A ⟨1, 0⟩) 4 = .B (kbn_sum.addValue kbn_sum.init 4) ∧
    condAddValue kbnAcc kbnAcc (fun x : ℚ => decide (x < 3))
      (.B ⟨9, 0⟩) 1 = .A (kbn_sum.addValue kbn_sum.init 1) := by
  constructor
  · exact C6_conditional_branch_switch.1 _ _ _ _ _ kbnAcc kbnAcc _ ⟨1, 0⟩ 4
      (by norm_num)
  · exact C6_conditional_branch_switch.2.1 _ _ _ _ _ kbnAcc kbnAcc _ ⟨9, 0⟩ 1
      (by norm_num)


/-! ## Claim C2: identity neutrality (corrected) -/

theorem set_append_cons_length {α : Type} (t r : List α) (w v : α) :
    (t ++ w :: r).set t.length v = t ++ v :: r := by
  induction t with
  | nil => rfl
  | cons x xs ih => simp [List.set, ih]

namespace p2_quantile_accumulator

theorem foldList_snoc_p2 (s : p2_quantile_accumulator)
    (t : List ℚ) (v : ℚ) :
    s.foldList (t ++ [v]) = (s.foldList t).addValue v := by
  simp [foldList, List.foldl_append]

/-- Characterization of the initialization phase: folding at most five
values stores them in order (sorted once the fifth arrives) and touches
nothing else. -/
theorem foldList_init_phase (p : ℚ) (l : List ℚ) (h : l.length ≤ 5) :
    foldList (initState p) l =
      { initState p with
          count := l.length
          q := if l.length = 5 then l.insertionSort (· ≤ ·)
               else l ++ List.replicate (5 - l.length) 0 } := by
  induction l using List.reverseRecOn with
  | nil => simp [foldList, initState]
  | append_singleton t v ih =>
    have hlen : t.length + 1 ≤ 5 := by simpa using h
    have ht : t.length ≤ 5 := by omega
    have ht5 : t.length ≠ 5 := by omega
    rw [foldList_snoc_p2, ih ht, if_neg ht5]
    unfold addValue
    dsimp only
    rw [if_pos hlen]
    have hrep : 5 - t.length = (5 - (t.length + 1)) + 1 := by omega
    rw [Nat.add_sub_cancel, hrep, List.replicate_succ, set_append_cons_length]
    rcases eq_or_ne (t.length + 1) 5 with h5 | h5
    · rw [if_pos h5]
      have hz : 5 - (t.length + 1) = 0 := by omega
      rw [hz, List.replicate_zero]
      simp [h5]
    · rw [if_neg h5]
      have hL : (t ++ [v]).length = t.length + 1 := by simp
      simp [hL, h5]

/-- Merging a fold still in its initialization phase into a fresh
accumulator with the same target quantile replays the stored values and
reproduces the same state. -/
theorem merge_initState_left (p : ℚ) (l : List ℚ) (h : l.length ≤ 5) :
    merge (initState p) (foldList (initState p) l) =
      foldList (initState p) l := by
  rcases eq_or_ne l [] with rfl | hne
  · simp [merge, foldList, initState]
  · have hlen0 : l.length ≠ 0 := fun hc => hne (List.length_eq_zero.mp hc)
    rw [foldList_init_phase p l h]
    unfold merge
    dsimp only
    rw [if_neg hlen0, if_pos (by norm_num [initState])]
    rcases eq_or_ne l.length 5 with h5 | h5
    · rw [if_pos h5]
      have hsl : (l.insertionSort (· ≤ ·)).length = l.length :=
        List.length_insertionSort _ _
      have hmin : min l.length 5 = 5 := by omega
      rw [hmin, List.take_of_length_le (by rw [hsl]; omega)]
      rw [show (l.insertionSort (· ≤ ·)).foldl addValue (initState p) =
        foldList (initState p) (l.insertionSort (· ≤ ·)) from rfl]
      rw [foldList_init_phase p _ (by rw [hsl]; omega)]
      rw [if_pos (by rw [hsl]; exact h5)]
      rw [(List.sorted_insertionSort _ l).insertionSort_eq, hsl]
    · have hlt : l.length < 5 := by omega
      rw [if_neg h5]
      have hmin : min l.length 5 = l.length := by omega
      rw [hmin, List.take_left]
      rw [show l.foldl addValue (initState p) =
        foldList (initState p) l from rfl]
      rw [foldList_init_phase p l h, if_neg h5]

end p2_quantile_accumulator

/-- C2 counterexample: the identity-constructed conditional composition
holds the first variant alternative, so merging a state whose active
branch is the second alternative into it is a no-op: with children
`kbn_sum` and predicate x<3, the state r reached by feeding 4 satisfies
merge(identity(), r) ≠ r (the merge result still holds branch A and
evaluates to 0, while r holds branch B and evaluates to 4). -/
theorem C2_counterexample_conditional_left_identity :
    (condMerge kbnAcc kbnAcc (condInit kbnAcc)
        (condAddValue kbnAcc kbnAcc (fun x : ℚ => decide (x < 3))
          (condInit kbnAcc) 4) ≠
      condAddValue kbnAcc kbnAcc (fun x : ℚ => decide (x < 3))
        (condInit kbnAcc) 4) ∧
    condEval kbnAcc kbnAcc
      (condMerge kbnAcc kbnAcc (condInit kbnAcc)
        (condAddValue kbnAcc kbnAcc (fun x : ℚ => decide (x < 3))
          (condInit kbnAcc) 4)) = 0 ∧
    condEval kbnAcc kbnAcc
      (condAddValue kbnAcc kbnAcc (fun x : ℚ => decide (x < 3))
        (condInit kbnAcc) 4) = 4 := by
  have h : condAddValue kbnAcc kbnAcc (fun x : ℚ => decide (x < 3))
      (condInit kbnAcc) 4 = .B (kbn_sum.addValue kbn_sum.init 4) := by
    norm_num [condAddValue, condInit, kbnAcc]
  rw [h]
  refine ⟨by simp [condMerge, condInit], by simp [condMerge, condInit,
    condEval, kbnAcc, kbn_sum.init, kbn_sum.eval_mk], ?_⟩
  simp only [condEval, kbnAcc, kbn_sum.addValue_eq, kbn_sum.eval_mk]
  norm_num [kbn_sum.init, kbn_sum.eval_mk]

theorem kbn_merge_init_left (r : kbn_sum) (h : r.correction = 0) :
    kbn_sum.merge .init r = r := by
  unfold kbn_sum.merge
  rw [kbn_sum.addValue_eq]
  cases r with
  | mk s c =>
    simp only at h
    subst h
    simp [kbn_sum.eval_mk, kbn_sum.init]

theorem kbn_merge_init_right (r : kbn_sum) (h : r.correction = 0) :
    kbn_sum.merge r .init = r := by
  unfold kbn_sum.merge
  rw [kbn_sum.addValue_eq]
  cases r with
  | mk s c =>
    simp only at h
    subst h
    simp [kbn_sum.eval_mk, kbn_sum.init]

/-- C2 amended: merge neutrality of the identity-constructed reducer,
restricted to where the code actually provides it.  For kbn_sum (states
with zero residual correction, i.e. all reachable states of the exact
model), welford (counting states), min/max (empty states carry the
sentinel), and count, the identity is two-sided neutral.  For the
conditional composition the identity (holding the first alternative) is
right-neutral always, but left-neutral only when the other side also
holds the first alternative.  For the P2 quantile accumulator the
identity is right-neutral always and left-neutral while the other side
is still in its initialization phase (count ≤ 5); past initialization
the left merge collapses the other side to its five markers, so the
claimed neutrality does not hold there. -/
theorem C2_amended_identity_neutrality :
    (∀ r : kbn_sum, r.correction = 0 →
      kbn_sum.merge .init r = r ∧ kbn_sum.merge r .init = r) ∧
    (∀ r : welford_accumulator, welford_accumulator.merge r .init = r) ∧
    (∀ r : welford_accumulator, (r.count = 0 → r = .init) →
      welford_accumulator.merge .init r = r) ∧
    (∀ (tmax : ℚ) (r : min_accumulator),
      (r.has_value = false → r.min_value = tmax) →
      min_accumulator.merge (.init tmax) r = r ∧
      min_accumulator.merge r (.init tmax) = r) ∧
    (∀ (tlow : ℚ) (r : max_accumulator),
      (r.has_value = false → r.max_value = tlow) →
      max_accumulator.merge (.init tlow) r = r ∧
      max_accumulator.merge r (.init tlow) = r) ∧
    (∀ r : count_accumulator,
      count_accumulator.merge .init r = r ∧
      count_accumulator.merge r .init = r) ∧
    (∀ b : kbn_sum,
      condMerge kbnAcc kbnAcc (CState.B b) (condInit kbnAcc) =
        CState.B b) ∧
    (∀ a : kbn_sum, a.correction = 0 →
      condMerge kbnAcc kbnAcc (condInit kbnAcc) (CState.A a) =
        CState.A a ∧
      condMerge kbnAcc kbnAcc (CState.A a) (condInit kbnAcc) =
        CState.A a) ∧
    (∀ (r : p2_quantile_accumulator) (pid : ℚ),
      p2_quantile_accumulator.merge r (.initState pid) = r) ∧
    (∀ (p : ℚ) (l : List ℚ), l.length ≤ 5 →
      p2_quantile_accumulator.merge (.initState p)
        (p2_quantile_accumulator.foldList (.initState p) l) =
        p2_quantile_accumulator.foldList (.initState p) l) := by
  refine ⟨fun r h => ⟨kbn_merge_init_left r h, kbn_merge_init_right r h⟩,
    ?_, ?_, ?_, ?_, ?_, fun b => rfl, ?_, ?_,
    p2_quantile_accumulator.merge_initState_left⟩
  · intro r
    unfold welford_accumulator.merge
    simp [welford_accumulator.init]
  · intro r hr
    by_cases h0 : r.count = 0
    · rw [hr h0]
      unfold welford_accumulator.merge
      simp [welford_accumulator.init]
    · unfold welford_accumulator.merge
      rw [if_neg h0]
      simp [welford_accumulator.init]
  · intro tmax r hr
    refine ⟨?_, min_accumulator.merge_of_empty_min r _ rfl⟩
    rcases hh : r.has_value with _ | _
    · rw [min_accumulator.merge_of_empty_min _ _ hh]
      cases r with
      | mk m hv =>
        simp only at hh
        subst hh
        have hm : m = tmax := by simpa using hr rfl
        subst hm
        rfl
    · rw [min_accumulator.merge_of_has_min _ _ hh,
        min_accumulator.addValue_of_empty_min _ _ rfl]
      cases r with
      | mk m hv =>
        simp only at hh
        subst hh
        rfl
  · intro tlow r hr
    refine ⟨?_, max_accumulator.merge_of_empty_max r _ rfl⟩
    rcases hh : r.has_value with _ | _
    · rw [max_accumulator.merge_of_empty_max _ _ hh]
      cases r with
      | mk m hv =>
        simp only at hh
        subst hh
        have hm : m = tlow := by simpa using hr rfl
        subst hm
        rfl
    · rw [max_accumulator.merge_of_has_max _ _ hh,
        max_accumulator.addValue_of_empty_max _ _ rfl]
      cases r with
      | mk m hv =>
        simp only at hh
        subst hh
        rfl
  · intro r
    cases r with
    | mk c => exact ⟨by simp [count_accumulator.merge, count_accumulator.init],
        by simp [count_accumulator.merge, count_accumulator.init]⟩
  · intro a h
    exact ⟨congrArg CState.A (kbn_merge_init_left a h),
      congrArg CState.A (kbn_merge_init_right a h)⟩
  · intro r pid
    unfold p2_quantile_accumulator.merge
    simp [p2_quantile_accumulator.initState]

/-- Witness for the amended C2 at concrete states: a kbn_sum holding 4,
a welford state for the single sample 2, a min accumulator holding 3, a
max accumulator holding 3, and a P2 accumulator (p = 1/2) that has seen
{1, 2}. -/
theorem C2_amended_identity_neutrality_witness :
    (kbn_sum.merge .init ⟨4, 0⟩ = ⟨4, 0⟩ ∧
      kbn_sum.merge ⟨4, 0⟩ .init = ⟨4, 0⟩) ∧
    (welford_accumulator.merge .init ⟨1, ⟨2, 0⟩, ⟨0, 0⟩⟩ =
      ⟨1, ⟨2, 0⟩, ⟨0, 0⟩⟩) ∧
    (min_accumulator.merge (.init 7) ⟨3, true⟩ = ⟨3, true⟩ ∧
      min_accumulator.merge ⟨3, true⟩ (.init 7) = ⟨3, true⟩) ∧
    (max_accumulator.merge (.init (-7)) ⟨3, true⟩ = ⟨3, true⟩ ∧
      max_accumulator.merge ⟨3, true⟩ (.init (-7)) = ⟨3, true⟩) ∧
    (condMerge kbnAcc kbnAcc (condInit kbnAcc) (CState.A ⟨4, 0⟩) =
      CState.A ⟨4, 0⟩) ∧
    (p2_quantile_accumulator.merge (.initState (1/2))
        (p2_quantile_accumulator.foldList (.initState (1/2)) [1, 2]) =
      p2_quantile_accumulator.foldList (.initState (1/2)) [1, 2]) := by
  refine ⟨C2_amended_identity_neutrality.1 ⟨4, 0⟩ rfl,
    C2_amended_identity_neutrality.2.2.1 ⟨1, ⟨2, 0⟩, ⟨0, 0⟩⟩
      (fun h => absurd h (by decide)),
    C2_amended_identity_neutrality.2.2.2.1 7 ⟨3, true⟩
      (fun h => absurd h (by decide)),
    C2_amended_identity_neutrality.2.2.2.2.1 (-7) ⟨3, true⟩
      (fun h => absurd h (by decide)),
    (C2_amended_identity_neutrality.2.2.2.2.2.2.2.1 ⟨4, 0⟩ rfl).1,
    C2_amended_identity_neutrality.2.2.2.2.2.2.2.2.2 (1/2) [1, 2]
      (by decide)⟩


/-! ## Claims C7, C8, C9 -/

theorem getD_map_range {β : Type} (f : ℕ → β) (n i : ℕ) (d : β)
    (h : i < n) : ((List.range n).map f).getD i d = f i := by
  rw [List.getD_eq_getElem?_getD, List.getElem?_map, List.getElem?_range h]
  rfl

/-- C7: the validated constructors raise a configuration error exactly
on invalid configuration — the P2 estimator iff the quantile is outside
(0,1), the sliding window iff the size is zero, the histogram iff
min ≥ max or the bin count is zero — and update/merge/result never
raise one (they are total functions of the model; the only fallible
operation, the histogram merge, never produces a configuration
error). -/
theorem C7_configuration_errors_only_at_construction :
    (∀ p : ℚ, p2_quantile_accumulator.mk? p = .error .ConfigurationError ↔
      (p ≤ 0 ∨ 1 ≤ p)) ∧
    (∀ p : ℚ, ¬(p ≤ 0 ∨ 1 ≤ p) →
      p2_quantile_accumulator.mk? p = .ok (.initState p)) ∧
    (∀ (σ α β : Type) (A : AccM σ α β) (k : ℕ),
      (sliding_window_accumulator.mk? A k = .error .ConfigurationError ↔
        k = 0)) ∧
    (∀ (σ α β : Type) (A : AccM σ α β) (k : ℕ), k ≠ 0 →
      sliding_window_accumulator.mk? A k = .ok ⟨k, [], A.ident, false⟩) ∧
    (∀ (mn mx : ℚ) (b : ℕ),
      (histogram_accumulator.mk? mn mx b = .error .ConfigurationError ↔
        (mn ≥ mx ∨ b = 0))) ∧
    (∀ a b : histogram_accumulator,
      histogram_accumulator.merge a b ≠ .error .ConfigurationError) := by
  refine ⟨?_, ?_, ?_, ?_, ?_, ?_⟩
  · intro p
    unfold p2_quantile_accumulator.mk?
    split_ifs with h <;> simp [h]
  · intro p h
    unfold p2_quantile_accumulator.mk?
    rw [if_neg h]
  · intro σ α β A k
    unfold sliding_window_accumulator.mk?
    split_ifs with h <;> simp [h]
  · intro σ α β A k h
    unfold sliding_window_accumulator.mk?
    rw [if_neg h]
  · intro mn mx b
    unfold histogram_accumulator.mk?
    split_ifs with h1 h2
    · simp [h1]
    · simp [h1, h2]
    · simp [h1, h2]
  · intro a b
    unfold histogram_accumulator.merge
    split_ifs <;> simp

/-- Witness for C7: p = 1/2 and window size 3 are valid
configurations. -/
theorem C7_configuration_errors_only_at_construction_witness :
    p2_quantile_accumulator.mk? (1/2) =
      .ok (.initState (1/2)) ∧
    sliding_window_accumulator.mk? kbnAcc 3 =
      .ok ⟨3, [], kbnAcc.ident, false⟩ :=
  ⟨C7_configuration_errors_only_at_construction.2.1 (1/2) (by norm_num),
    C7_configuration_errors_only_at_construction.2.2.2.1
      kbn_sum ℚ ℚ kbnAcc 3 (by decide)⟩

/-- C8: the histogram merge raises a type-mismatch error exactly when
the bin configurations (min, max or bin count) differ — the throw
precedes any mutation, so the receiver is unchanged — and on matching
configurations it returns the element-wise sums of bin counts,
underflow, overflow and total. -/
theorem C8_histogram_merge_configuration :
    (∀ a b : histogram_accumulator,
      (histogram_accumulator.merge a b = .error .TypeMismatchError ↔
        (a.min_ ≠ b.min_ ∨ a.max_ ≠ b.max_ ∨ a.num_bins_ ≠ b.num_bins_))) ∧
    (∀ a b : histogram_accumulator,
      a.min_ = b.min_ → a.max_ = b.max_ → a.num_bins_ = b.num_bins_ →
      ∃ c, histogram_accumulator.merge a b = .ok c ∧
        c.min_ = a.min_ ∧ c.max_ = a.max_ ∧ c.num_bins_ = a.num_bins_ ∧
        c.underflow_ = a.underflow_ + b.underflow_ ∧
        c.overflow_ = a.overflow_ + b.overflow_ ∧
        c.total_ = a.total_ + b.total_ ∧
        c.counts_.length = a.num_bins_ ∧
        (∀ i, i < a.num_bins_ →
          c.counts_.getD i 0 = a.counts_.getD i 0 + b.counts_.getD i 0)) := by
  constructor
  · intro a b
    unfold histogram_accumulator.merge
    split_ifs with h <;> simp [h]
  · intro a b h1 h2 h3
    unfold histogram_accumulator.merge
    rw [if_neg (by push_neg; exact ⟨h1, h2, h3⟩)]
    refine ⟨_, rfl, rfl, rfl, rfl, rfl, rfl, rfl, by simp, ?_⟩
    intro i hi
    exact getD_map_range _ _ _ _ hi

/-- Witness for C8: merging two 2-bin histograms over [0,1) adds bins
and counters; the mismatch direction is exercised by the iff at
differing bin counts. -/
theorem C8_histogram_merge_configuration_witness :
    (∃ c, histogram_accumulator.merge
        ⟨0, 1, 2, 1/2, [1, 2], 3, 4, 10⟩ ⟨0, 1, 2, 1/2, [5, 6], 7, 8, 26⟩ =
        .ok c ∧ c.total_ = 36 ∧ c.counts_.getD 0 0 = 6 ∧
        c.counts_.getD 1 0 = 8) ∧
    histogram_accumulator.merge ⟨0, 1, 2, 1/2, [1, 2], 3, 4, 10⟩
      ⟨0, 1, 3, 1/3, [5, 6, 7], 7, 8, 33⟩ = .error .TypeMismatchError := by
  constructor
  · obtain ⟨c, hc, _, _, _, _, _, htot, _, hbin⟩ :=
      C8_histogram_merge_configuration.2
        ⟨0, 1, 2, 1/2, [1, 2], 3, 4, 10⟩ ⟨0, 1, 2, 1/2, [5, 6], 7, 8, 26⟩
        rfl rfl rfl
    refine ⟨c, hc, by rw [htot]; rfl, ?_, ?_⟩
    · rw [hbin 0 (by decide)]
      rfl
    · rw [hbin 1 (by decide)]
      rfl
  · exact (C8_histogram_merge_configuration.1
      ⟨0, 1, 2, 1/2, [1, 2], 3, 4, 10⟩
      ⟨0, 1, 3, 1/3, [5, 6, 7], 7, 8, 33⟩).mpr (by right; right; decide)

theorem takeLast_of_le {α : Type} (k : ℕ) (l : List α) (h : l.length ≤ k) :
    takeLast k l = l := by
  unfold takeLast
  rw [Nat.sub_eq_zero_of_le h, List.drop_zero]

theorem takeLast_length_le {α : Type} (k : ℕ) (l : List α) :
    (takeLast k l).length ≤ k := by
  unfold takeLast
  rw [List.length_drop]
  omega

theorem takeLast_cons_of_le {α : Type} (k : ℕ) (x : α) (l : List α)
    (h : k ≤ l.length) : takeLast k (x :: l) = takeLast k l := by
  unfold takeLast
  rw [List.length_cons]
  have heq : l.length + 1 - k = (l.length - k) + 1 := by omega
  rw [heq, List.drop_succ_cons]

theorem takeLast_append_left {α : Type} (k : ℕ) (P Q : List α) :
    takeLast k (takeLast k P ++ Q) = takeLast k (P ++ Q) := by
  induction P with
  | nil => simp [takeLast]
  | cons x P ih =>
    rcases le_or_lt (x :: P).length k with h | h
    · rw [takeLast_of_le k (x :: P) h]
    · have hP : k ≤ P.length := by
        simp only [List.length_cons] at h
        omega
      rw [takeLast_cons_of_le k x P hP, List.cons_append,
        takeLast_cons_of_le k x (P ++ Q) (by simp; omega), ih]

namespace sliding_window_accumulator

theorem addValue_char {σ α : Type} (k : ℕ) (_hk : k ≠ 0)
    (s : sliding_window_accumulator σ α) (v : α)
    (hw : s.window_size_ = k) (hlen : s.values_.length ≤ k) :
    (s.addValue v).values_ = takeLast k (s.values_ ++ [v]) ∧
    (s.addValue v).window_size_ = k ∧
    (s.addValue v).cache_valid_ = false := by
  unfold addValue
  dsimp only
  rw [hw]
  refine ⟨?_, rfl, rfl⟩
  rcases lt_or_eq_of_le hlen with hlt | heq
  · rw [if_neg (by simp only [List.length_append, List.length_singleton]; omega),
      takeLast_of_le]
    simp only [List.length_append, List.length_singleton]
    omega
  · rw [if_pos (by simp only [List.length_append, List.length_singleton]; omega)]
    unfold takeLast
    have h1 : (s.values_ ++ [v]).length - k = 1 := by
      simp only [List.length_append, List.length_singleton]
      omega
    rw [h1, List.drop_one]

theorem foldl_addValue_char {σ α : Type} (k : ℕ) (hk : k ≠ 0) :
    ∀ (m : List α) (s : sliding_window_accumulator σ α) (P : List α),
      s.window_size_ = k → s.values_ = takeLast k P →
      (m.foldl addValue s).values_ = takeLast k (P ++ m) ∧
      (m.foldl addValue s).window_size_ = k := by
  intro m
  induction m with
  | nil =>
    intro s P hw hv
    refine ⟨?_, hw⟩
    rw [List.foldl_nil, List.append_nil]
    exact hv
  | cons v t ih =>
    intro s P hw hv
    rw [List.foldl_cons]
    have hlen : s.values_.length ≤ k := by
      rw [hv]
      exact takeLast_length_le k P
    obtain ⟨h1, h2, _⟩ := addValue_char k hk s v hw hlen
    have h1a : (s.addValue v).values_ = takeLast k (P ++ [v]) := by
      rw [h1, hv, takeLast_append_left]
    have hrest := ih (s.addValue v) (P ++ [v]) h2 h1a
    rw [List.append_assoc] at hrest
    simpa using hrest

theorem foldl_addValue_inv {σ α β : Type} (A : AccM σ α β) :
    ∀ (m : List α) (s : sliding_window_accumulator σ α),
      swCacheInv A s → swCacheInv A (m.foldl addValue s) := by
  intro m
  induction m with
  | nil => intro s h; exact h
  | cons v t ih =>
    intro s _
    rw [List.foldl_cons]
    apply ih
    intro hc
    simp [addValue] at hc

theorem query_values {σ α β : Type} (A : AccM σ α β)
    (s : sliding_window_accumulator σ α) : (query A s).values_ = s.values_ := by
  unfold query
  split_ifs <;> rfl

theorem query_window {σ α β : Type} (A : AccM σ α β)
    (s : sliding_window_accumulator σ α) :
    (query A s).window_size_ = s.window_size_ := by
  unfold query
  split_ifs <;> rfl

theorem query_inv {σ α β : Type} (A : AccM σ α β)
    (s : sliding_window_accumulator σ α) (h : swCacheInv A s) :
    swCacheInv A (query A s) := by
  unfold query
  split_ifs with hv
  · exact h
  · intro _
    rfl

theorem eval_of_inv {σ α β : Type} (A : AccM σ α β)
    (s : sliding_window_accumulator σ α) (h : swCacheInv A s) :
    eval A s = A.evalf (rebuild A s) := by
  unfold eval
  split_ifs with hv
  · rw [h hv]
  · rfl

end sliding_window_accumulator

theorem swRun_char {σ α β : Type} (A : AccM σ α β) (k : ℕ) (hk : k ≠ 0) :
    ∀ (ops : List (SWOp σ α)) (s : sliding_window_accumulator σ α)
      (P : List α),
      s.window_size_ = k → s.values_ = takeLast k P → swCacheInv A s →
      (ops.foldl (swStep A) s).window_size_ = k ∧
      (ops.foldl (swStep A) s).values_ = takeLast k (P ++ swPushes ops) ∧
      swCacheInv A (ops.foldl (swStep A) s) := by
  intro ops
  induction ops with
  | nil =>
    intro s P hw hv hi
    refine ⟨hw, ?_, hi⟩
    rw [List.foldl_nil, swPushes, List.append_nil]
    exact hv
  | cons op t ih =>
    intro s P hw hv hi
    rw [List.foldl_cons]
    cases op with
    | upd v =>
      have hlen : s.values_.length ≤ k := by
        rw [hv]
        exact takeLast_length_le k P
      obtain ⟨h1, h2, h3⟩ :=
        sliding_window_accumulator.addValue_char k hk s v hw hlen
      have h1a : (s.addValue v).values_ = takeLast k (P ++ [v]) := by
        rw [h1, hv, takeLast_append_left]
      have hinv : swCacheInv A (s.addValue v) := by
        intro hc
        rw [h3] at hc
        cases hc
      have hrest := ih (s.addValue v) (P ++ [v]) h2 h1a hinv
      rw [List.append_assoc] at hrest
      simpa [swStep, swPushes] using hrest
    | mrg o =>
      obtain ⟨hv2, hw2⟩ := sliding_window_accumulator.foldl_addValue_char
        k hk o.values_ s P hw hv
      have hinv : swCacheInv A (s.merge o) :=
        sliding_window_accumulator.foldl_addValue_inv A o.values_ s hi
      have hrest := ih (s.merge o) (P ++ o.values_) hw2 hv2 hinv
      rw [List.append_assoc] at hrest
      simpa [swStep, swPushes] using hrest
    | query =>
      have hw2 : (sliding_window_accumulator.query A s).window_size_ = k := by
        rw [sliding_window_accumulator.query_window, hw]
      have hv2 : (sliding_window_accumulator.query A s).values_ =
          takeLast k P := by
        rw [sliding_window_accumulator.query_values, hv]
      have hinv := sliding_window_accumulator.query_inv A s hi
      have hrest := ih _ P hw2 hv2 hinv
      simpa [swStep, swPushes] using hrest

/-- C9: after any run of updates, merges and reads, a count-bounded
sliding window retains at most its configured bound, holds exactly the
last k pushed values in FIFO order (`takeLast` drops the oldest first),
and its result is the wrapped reducer folded over the retained
values. -/
theorem C9_sliding_window_bound_fifo :
    ∀ (σ α β : Type) (A : AccM σ α β) (k : ℕ) (ops : List (SWOp σ α)),
      k ≠ 0 →
      (swRun A k ops).window_size_ = k ∧
      (swRun A k ops).values_.length ≤ k ∧
      (swRun A k ops).values_ = takeLast k (swPushes ops) ∧
      sliding_window_accumulator.eval A (swRun A k ops) =
        A.evalf ((swRun A k ops).values_.foldl A.upd A.ident) := by
  intro σ α β A k ops hk
  obtain ⟨h1, h2, h3⟩ := swRun_char A k hk ops ⟨k, [], A.ident, false⟩ []
    rfl (by simp [takeLast]) (fun hc => by cases hc)
  have h2a : (swRun A k ops).values_ = takeLast k (swPushes ops) := by
    rw [show swRun A k ops = ops.foldl (swStep A) ⟨k, [], A.ident, false⟩
      from rfl, h2]
    rfl
  refine ⟨h1, ?_, h2a, ?_⟩
  · rw [h2a]
    exact takeLast_length_le _ _
  · exact sliding_window_accumulator.eval_of_inv A _ h3

/-- Witness for C9: a window of size 2 fed 1, 2, 3 retains [2, 3]. -/
theorem C9_sliding_window_bound_fifo_witness :
    (swRun kbnAcc 2 [SWOp.upd 1, SWOp.upd 2, SWOp.upd 3]).values_ =
      [2, 3] ∧
    (swRun kbnAcc 2 [SWOp.upd 1, SWOp.upd 2, SWOp.upd 3]).values_.length ≤ 2 := by
  obtain ⟨h1, h2, h3, h4⟩ := C9_sliding_window_bound_fifo kbn_sum ℚ ℚ kbnAcc 2
    [.upd 1, .upd 2, .upd 3] (by decide)
  refine ⟨?_, h2⟩
  rw [h3]
  rfl
